import Mathlib

/-!
Verification of the attack-graph BFS program (`grafo_ataque.py`).

The Python program keeps an adjacency mapping `self.graph` — a
`defaultdict(list)` from a source node to its ordered list of
`(target, exploit)` pairs — plus an auxiliary NetworkX digraph
`self.visual_graph` used only for visualisation and for the
known-start check.  This file embeds the data model and the two core
operations, `add_attack_step` and `find_shortest_attack_path_bfs`,
as executable Lean functions, and proves the specification claims
about them.

Modelling decisions, each traceable to a source line:
* the Python dict is an association list in key-insertion order;
  `defaultdict` auto-vivification (`self.graph[current_node]` on a
  missing key appends an empty entry at the end) is modelled by
  `dictGetViv`, so searches thread and return the possibly-mutated
  dictionary;
* the NetworkX edge store is a list of `(source, target, label)`
  triples where re-adding an existing `(source, target)` pair
  overwrites the label in place;
* the BFS loop is fuel-indexed (`bfsLoop`); `bfsFuel` computes a fuel
  bound from the graph, and we prove the bound is never exhausted.
-/

namespace GrafoAtaque

/-- The adjacency mapping of the Python class: an association list from a
source node to its ordered outgoing `(target, exploit)` list, in key
insertion order. -/
abbrev Dict : Type := List (String × List (String × String))

/-- Python `s in d` / `d[s]` key search: first (unique) matching key. -/
def dictLookup : Dict → String → Option (List (String × String))
  | [], _ => none
  | (k, v) :: d, s => if k = s then some v else dictLookup d s

/-- The outgoing-edge list of `s`, or `[]` when `s` is not a key
(the value a fresh `defaultdict` entry would hold). -/
def dictGet (d : Dict) (s : String) : List (String × String) :=
  (dictLookup d s).getD []

/-- The keys of the mapping, in insertion order. -/
def dictKeys (d : Dict) : List String :=
  d.map (·.1)

/-- `self.graph[source].append(e)` on a `defaultdict(list)`: append to the
existing entry in place, or materialise a new key at the end. -/
def dictAppend : Dict → String → String × String → Dict
  | [], s, e => [(s, [e])]
  | (k, v) :: d, s, e =>
    if k = s then (k, v ++ [e]) :: d else (k, v) :: dictAppend d s e

/-- `self.graph[current]` read on a `defaultdict(list)`: returns the stored
list, auto-vivifying a missing key with an empty list at the end of the
key order (source line 57). -/
def dictGetViv (d : Dict) (s : String) : List (String × String) × Dict :=
  match dictLookup d s with
  | some v => (v, d)
  | none => ([], d ++ [(s, [])])

/-- All edge targets stored anywhere in the mapping, in order. -/
def allTargets : Dict → List String
  | [] => []
  | (_, v) :: d => v.map (·.1) ++ allTargets d

/-- The state of the Python `AttackGraph` object: the adjacency mapping
and the NetworkX visual edge store `(source, target, label)`. -/
structure AttackGraph : Type where
  graph : Dict
  visual : List (String × String × String)

/-- NetworkX `add_edge(u, v, label=e)`: update the label of an existing
`(u, v)` edge in place, else append the edge. -/
def nxAddEdge : List (String × String × String) → String → String → String →
    List (String × String × String)
  | [], s, t, e => [(s, t, e)]
  | (a, b, c) :: rest, s, t, e =>
    if a = s ∧ b = t then (s, t, e) :: rest else (a, b, c) :: nxAddEdge rest s t e

/-- `AttackGraph.add_attack_step` (source lines 18–28): append
`(target, exploit)` to `source`'s adjacency list and record the edge in
the visual graph. -/
def add_attack_step (ag : AttackGraph) (source target exploit : String) :
    AttackGraph :=
  { graph := dictAppend ag.graph source (target, exploit),
    visual := nxAddEdge ag.visual source target exploit }

/-- The sources of the visual graph's edges: the Python expression
`[u for u, v in self.visual_graph.edges]` at source line 37. -/
def visualSources (ag : AttackGraph) : List String :=
  ag.visual.map (·.1)

/-- The condition under which the search at source line 37 does NOT take
the unknown-start early return: `start` is a key of the adjacency mapping
or a source of a visual edge. -/
def knownStart (ag : AttackGraph) (s : String) : Prop :=
  s ∈ dictKeys ag.graph ∨ s ∈ visualSources ag

instance (ag : AttackGraph) (s : String) : Decidable (knownStart ag s) :=
  inferInstanceAs (Decidable (s ∈ dictKeys ag.graph ∨ s ∈ visualSources ag))

/-- The neighbour-exploration inner loop (source lines 57–62): walk the
stored `(neighbor, exploit)` list in order; each unvisited neighbour is
marked visited and its extended path appended to the queue. -/
def expand (path : List String) :
    List (String × String) → List (List String) → List String →
    List (List String) × List String
  | [], q, vis => (q, vis)
  | (v, _) :: ns, q, vis =>
    if v ∈ vis then expand path ns q vis
    else expand path ns (q ++ [path ++ [v]]) (v :: vis)

/-- The BFS `while queue:` loop (source lines 47–65), fuel-indexed.
`none` means the fuel ran out (we prove this never happens for the fuel
chosen by `find_shortest_attack_path_bfs`); `some (r, g)` is the returned
path option together with the adjacency mapping, which may have gained
auto-vivified empty entries. -/
def bfsLoop (target : String) : Nat → Dict → List (List String) → List String →
    Option (Option (List String) × Dict)
  | 0, _, _, _ => none
  | _ + 1, g, [], _ => some (none, g)
  | fuel + 1, g, path :: rest, vis =>
    if path.getLastD "" = target then some (some path, g)
    else
      bfsLoop target fuel (dictGetViv g (path.getLastD "")).2
        (expand path (dictGetViv g (path.getLastD "")).1 rest vis).1
        (expand path (dictGetViv g (path.getLastD "")).1 rest vis).2

/-- Fuel bound for the BFS loop: the loop dequeues at most one entry per
node ever enqueued, and every enqueued node is `start` or a stored edge
target, so this bound is never exhausted. -/
def bfsFuel (d : Dict) (s : String) : Nat :=
  (s :: allTargets d).length + 2

/-- `AttackGraph.find_shortest_attack_path_bfs` (source lines 30–65):
unknown start returns `None` at once; otherwise run the BFS loop.
The second component is the object state after the call (the adjacency
mapping may gain auto-vivified empty entries; the visual graph is
untouched). -/
def find_shortest_attack_path_bfs (ag : AttackGraph) (s t : String) :
    Option (List String) × AttackGraph :=
  if knownStart ag s then
    match bfsLoop t (bfsFuel ag.graph s) ag.graph [[s]] [s] with
    | some (r, g) => (r, { ag with graph := g })
    | none => (none, ag)
  else (none, ag)

/-- The empty `AttackGraph()` object. -/
def emptyGraph : AttackGraph := ⟨[], []⟩

/-- `has_node`, modelled from the spec (§4.1): the code has no such
function, the spec describes it as the implicit capability the search's
precondition check needs — true iff `id` is a source of at least one
edge or appears as some edge's target. -/
def spec_has_node (ag : AttackGraph) (id : String) : Bool :=
  ag.graph.any (fun kv => kv.1 == id && !kv.2.isEmpty) ||
    (allTargets ag.graph).contains id

/-! ### The graph-theoretic side: edges, walks, reachability -/

/-- `u → v` is an edge of the adjacency mapping (with some exploit label). -/
def hasEdge (g : Dict) (u v : String) : Prop :=
  ∃ e, (v, e) ∈ dictGet g u

/-- A walk: a nonempty node sequence whose consecutive pairs are edges. -/
def isWalk (g : Dict) (p : List String) : Prop :=
  p ≠ [] ∧ List.Chain' (hasEdge g) p

/-- A walk from `s` to `t`.  Its edge count is `p.length - 1`, so
comparing node-sequence lengths compares hop counts. -/
def isWalkFromTo (g : Dict) (s t : String) (p : List String) : Prop :=
  isWalk g p ∧ p.head? = some s ∧ p.getLast? = some t

/-- Reachability from `s` in exactly `n` hops, anchored at the walk's end
so that it extends by one edge at a time. -/
inductive Reach (g : Dict) (s : String) : String → Nat → Prop
  | refl : Reach g s s 0
  | step {u v n} : Reach g s u n → hasEdge g u v → Reach g s v (n + 1)

/-- How many elements of `U` are not yet visited: the BFS termination
measure's second component. -/
def remaining : List String → List String → Nat
  | [], _ => 0
  | u :: us, vis => (if u ∈ vis then 0 else 1) + remaining us vis

/-! ### Basic lemmas about the dictionary operations -/

theorem dictLookup_cons (k : String) (v : List (String × String)) (d : Dict)
    (s : String) :
    dictLookup ((k, v) :: d) s = if k = s then some v else dictLookup d s :=
  rfl

theorem dictLookup_mem_keys {d : Dict} {k : String} {v : List (String × String)}
    (h : dictLookup d k = some v) : k ∈ dictKeys d := by
  induction d with
  | nil => simp [dictLookup] at h
  | cons kv d ih =>
    obtain ⟨k', v'⟩ := kv
    rw [dictLookup_cons] at h
    by_cases hk : k' = k
    · simp [dictKeys, hk]
    · rw [if_neg hk] at h
      simp [dictKeys] at ih ⊢
      exact Or.inr (ih h)

theorem dictGet_ne_nil_mem_keys {d : Dict} {k : String}
    (h : dictGet d k ≠ []) : k ∈ dictKeys d := by
  cases hl : dictLookup d k with
  | none => simp [dictGet, hl] at h
  | some v => exact dictLookup_mem_keys hl

theorem dictLookup_append (d₁ d₂ : Dict) (k : String) :
    dictLookup (d₁ ++ d₂) k =
      match dictLookup d₁ k with
      | some v => some v
      | none => dictLookup d₂ k := by
  induction d₁ with
  | nil => simp [dictLookup]
  | cons kv d ih =>
    obtain ⟨k', v'⟩ := kv
    by_cases hk : k' = k
    · simp [dictLookup_cons, hk]
    · simpa [dictLookup_cons, hk] using ih

theorem dictGetViv_fst (d : Dict) (s : String) :
    (dictGetViv d s).1 = dictGet d s := by
  unfold dictGetViv dictGet
  cases dictLookup d s <;> simp

theorem dictGet_dictGetViv (d : Dict) (s k : String) :
    dictGet (dictGetViv d s).2 k = dictGet d k := by
  unfold dictGetViv
  cases hl : dictLookup d s with
  | some v => rfl
  | none =>
    simp only [dictGet, dictLookup_append]
    cases hk : dictLookup d k with
    | some v => rfl
    | none =>
      by_cases hs : s = k
      · simp [dictLookup_cons, hs]
      · simp [dictLookup_cons, hs, dictLookup]

theorem dictKeys_dictGetViv_mono {d : Dict} {k : String} (s : String)
    (h : k ∈ dictKeys d) : k ∈ dictKeys (dictGetViv d s).2 := by
  unfold dictGetViv
  cases dictLookup d s with
  | some v => exact h
  | none => simp [dictKeys] at h ⊢; exact Or.inl h

theorem allTargets_append (d₁ d₂ : Dict) :
    allTargets (d₁ ++ d₂) = allTargets d₁ ++ allTargets d₂ := by
  induction d₁ with
  | nil => simp [allTargets]
  | cons kv d ih => simp [allTargets, ih]

theorem allTargets_dictGetViv (d : Dict) (s : String) :
    allTargets (dictGetViv d s).2 = allTargets d := by
  unfold dictGetViv
  cases dictLookup d s with
  | some v => rfl
  | none => simp [allTargets_append, allTargets]

theorem dictGet_target_mem {d : Dict} {k : String} {ve : String × String}
    (h : ve ∈ dictGet d k) : ve.1 ∈ allTargets d := by
  induction d with
  | nil => simp [dictGet, dictLookup] at h
  | cons kv d ih =>
    obtain ⟨k', v'⟩ := kv
    simp only [allTargets, List.mem_append]
    by_cases hk : k' = k
    · simp only [dictGet, dictLookup_cons, if_pos hk, Option.getD_some] at h
      exact Or.inl (List.mem_map_of_mem _ h)
    · simp only [dictGet, dictLookup_cons, if_neg hk] at h
      exact Or.inr (ih h)

theorem dictGet_dictAppend_same (d : Dict) (s : String) (e : String × String) :
    dictGet (dictAppend d s e) s = dictGet d s ++ [e] := by
  induction d with
  | nil => simp [dictAppend, dictGet, dictLookup]
  | cons kv d ih =>
    obtain ⟨k', v'⟩ := kv
    by_cases hk : k' = s
    · simp [dictAppend, hk, dictGet, dictLookup_cons]
    · simpa [dictAppend, hk, dictGet, dictLookup_cons] using ih

/-! ### Lemmas about the `remaining` termination measure -/

theorem remaining_le (U vis : List String) : remaining U vis ≤ U.length := by
  induction U with
  | nil => simp [remaining]
  | cons u us ih =>
    simp only [remaining, List.length_cons]
    by_cases h : u ∈ vis <;> simp [h] <;> omega

theorem remaining_mono (U : List String) {vis vis' : List String}
    (h : ∀ x ∈ vis, x ∈ vis') : remaining U vis' ≤ remaining U vis := by
  induction U with
  | nil => simp [remaining]
  | cons u us ih =>
    simp only [remaining]
    by_cases hu : u ∈ vis
    · have : u ∈ vis' := h u hu
      simp [hu, this]; exact ih
    · by_cases hu' : u ∈ vis' <;> simp [hu, hu'] <;> omega

theorem remaining_cons_lt {U vis : List String} {v : String}
    (hU : v ∈ U) (hv : v ∉ vis) :
    remaining U (v :: vis) + 1 ≤ remaining U vis := by
  induction U with
  | nil => simp at hU
  | cons u us ih =>
    simp only [remaining]
    by_cases huv : u = v
    · subst huv
      have h1 : u ∈ u :: vis := List.mem_cons_self u vis
      have h2 : remaining us (u :: vis) ≤ remaining us vis :=
        remaining_mono us (fun x hx => List.mem_cons_of_mem u hx)
      simp [h1, hv]; omega
    · have hmem : u ∈ v :: vis ↔ u ∈ vis := by
        simp [List.mem_cons, huv]
      have hUus : v ∈ us := by
        rcases List.mem_cons.mp hU with h | h
        · exact absurd h.symm huv
        · exact h
      have := ih hUus
      by_cases hu : u ∈ vis
      · simp [hmem.mpr hu, hu]; omega
      · have : u ∉ v :: vis := fun hc => hu (hmem.mp hc)
        simp [this, hu]; omega

/-! ### Lemmas about walks and reachability -/

theorem getLast?_of_ne_nil {p : List String} (h : p ≠ []) (d : String) :
    p.getLast? = some (p.getLastD d) := by
  rcases List.eq_nil_or_concat p with rfl | ⟨q, a, rfl⟩
  · exact absurd rfl h
  · simp [List.getLast?_concat, List.getLastD_concat]

theorem head?_concat {p : List String} (h : p ≠ []) (v : String) :
    (p ++ [v]).head? = p.head? := by
  cases p with
  | nil => exact absurd rfl h
  | cons a q => simp

theorem isWalk_singleton (g : Dict) (a : String) : isWalk g [a] :=
  ⟨by simp, List.chain'_singleton a⟩

theorem isWalk_concat {g : Dict} {p : List String} {v : String}
    (h : isWalk g p) (he : hasEdge g (p.getLastD "") v) :
    isWalk g (p ++ [v]) := by
  obtain ⟨hne, hch⟩ := h
  refine ⟨by simp, ?_⟩
  rw [List.chain'_append]
  refine ⟨hch, List.chain'_singleton v, fun x hx y hy => ?_⟩
  rw [getLast?_of_ne_nil hne ""] at hx
  simp only [Option.mem_def, List.head?_cons, Option.some_inj] at hx hy
  rw [← hx, ← hy]
  exact he

theorem walk_reach {g : Dict} {w : List String} {s : String}
    (hw : isWalk g w) (hh : w.head? = some s) :
    Reach g s (w.getLastD "") (w.length - 1) := by
  induction w using List.reverseRecOn with
  | nil => simp at hh
  | append_singleton q v ih =>
    by_cases hqnil : q = []
    · subst hqnil
      simp at hh
      subst hh
      simpa [List.getLastD_concat] using Reach.refl
    · obtain ⟨-, hch⟩ := hw
      rw [List.chain'_append] at hch
      obtain ⟨hch₁, -, hcross⟩ := hch
      have hedge : hasEdge g (q.getLastD "") v :=
        hcross (q.getLastD "") (getLast?_of_ne_nil hqnil "") v rfl
      have hh' : q.head? = some s := by
        rw [head?_concat hqnil] at hh
        exact hh
      have hstep := Reach.step (ih ⟨hqnil, hch₁⟩ hh') hedge
      have hlen : q.length - 1 + 1 = q.length :=
        Nat.succ_pred_eq_of_pos (List.length_pos.mpr hqnil)
      rw [hlen] at hstep
      have hlen2 : (q ++ [v]).length - 1 = q.length := by simp
      rw [List.getLastD_concat, hlen2]
      exact hstep

theorem walkFromTo_reach {g : Dict} {w : List String} {s t : String}
    (hw : isWalkFromTo g s t w) : Reach g s t (w.length - 1) := by
  obtain ⟨hwalk, hh, hl⟩ := hw
  have hne : w ≠ [] := hwalk.1
  have := walk_reach hwalk hh
  rw [getLast?_of_ne_nil hne ""] at hl
  rw [Option.some_inj] at hl
  rwa [hl] at this

/-! ### Characterisation of the neighbour-exploration loop -/

theorem expand_spec (path : List String) :
    ∀ (ns : List (String × String)) (q : List (List String)) (vis : List String),
    ∃ news : List String,
      expand path ns q vis =
        (q ++ news.map (fun v => path ++ [v]), news.reverse ++ vis) ∧
      (∀ v ∈ news, v ∉ vis) ∧
      (∀ v ∈ news, ∃ e, (v, e) ∈ ns) ∧
      (∀ ve ∈ ns, ve.1 ∈ vis ∨ ve.1 ∈ news) := by
  intro ns
  induction ns with
  | nil =>
    intro q vis
    exact ⟨[], by simp [expand], by simp, by simp, by simp⟩
  | cons ve ns ih =>
    intro q vis
    obtain ⟨v, e⟩ := ve
    by_cases hv : v ∈ vis
    · obtain ⟨news, heq, hvis, hedge, hcover⟩ := ih q vis
      refine ⟨news, ?_, hvis, ?_, ?_⟩
      · rw [expand, if_pos hv]
        exact heq
      · intro x hx
        obtain ⟨e', he'⟩ := hedge x hx
        exact ⟨e', List.mem_cons_of_mem _ he'⟩
      · intro ve' hve'
        rcases List.mem_cons.mp hve' with h | h
        · rw [h]
          exact Or.inl hv
        · exact hcover ve' h
    · obtain ⟨news, heq, hvis, hedge, hcover⟩ := ih (q ++ [path ++ [v]]) (v :: vis)
      refine ⟨v :: news, ?_, ?_, ?_, ?_⟩
      · rw [expand, if_neg hv, heq]
        simp
      · intro x hx
        rcases List.mem_cons.mp hx with h | h
        · rw [h]; exact hv
        · intro hc
          exact hvis x h (List.mem_cons_of_mem v hc)
      · intro x hx
        rcases List.mem_cons.mp hx with h | h
        · exact ⟨e, by rw [h]; exact List.mem_cons_self _ _⟩
        · obtain ⟨e', he'⟩ := hedge x h
          exact ⟨e', List.mem_cons_of_mem _ he'⟩
      · intro ve' hve'
        rcases List.mem_cons.mp hve' with h | h
        · rw [h]
          exact Or.inr (List.mem_cons_self v news)
        · rcases hcover ve' h with h' | h'
          · rcases List.mem_cons.mp h' with h'' | h''
            · exact Or.inr (by rw [h'']; exact List.mem_cons_self v news)
            · exact Or.inl h''
          · exact Or.inr (List.mem_cons_of_mem v h')

theorem expand_len (U : List String) (path : List String) :
    ∀ (ns : List (String × String)) (q : List (List String)) (vis : List String),
    (∀ ve ∈ ns, ve.1 ∈ U) →
    (expand path ns q vis).1.length + remaining U (expand path ns q vis).2 ≤
      q.length + remaining U vis := by
  intro ns
  induction ns with
  | nil => intro q vis _; simp [expand]
  | cons ve ns ih =>
    intro q vis hU
    obtain ⟨v, e⟩ := ve
    have hUns : ∀ ve ∈ ns, ve.1 ∈ U := fun ve h => hU ve (List.mem_cons_of_mem _ h)
    by_cases hv : v ∈ vis
    · rw [expand, if_pos hv]
      exact ih q vis hUns
    · rw [expand, if_neg hv]
      have h1 := ih (q ++ [path ++ [v]]) (v :: vis) hUns
      have h2 : remaining U (v :: vis) + 1 ≤ remaining U vis :=
        remaining_cons_lt (hU (v, e) (List.mem_cons_self _ _)) hv
      simp only [List.length_append, List.length_cons, List.length_nil] at h1
      omega

/-! ### The fuel bound is sufficient -/

theorem bfsLoop_suff (t : String) (U : List String) :
    ∀ (fuel : Nat) (g : Dict) (queue : List (List String)) (vis : List String),
    (∀ k, ∀ ve ∈ dictGet g k, ve.1 ∈ U) →
    queue.length + remaining U vis < fuel →
    (bfsLoop t fuel g queue vis).isSome := by
  intro fuel
  induction fuel with
  | zero => intro g queue vis _ hlt; omega
  | succ fuel ih =>
    intro g queue vis hU hlt
    cases queue with
    | nil => simp [bfsLoop]
    | cons path rest =>
      rw [bfsLoop]
      by_cases hcur : path.getLastD "" = t
      · rw [if_pos hcur]; rfl
      · rw [if_neg hcur]
        apply ih
        · intro k ve hve
          rw [dictGet_dictGetViv] at hve
          exact hU k ve hve
        · have hns : ∀ ve ∈ (dictGetViv g (path.getLastD "")).1, ve.1 ∈ U := by
            rw [dictGetViv_fst]
            exact hU (path.getLastD "")
          have := expand_len U path (dictGetViv g (path.getLastD "")).1 rest vis hns
          simp only [List.length_cons] at hlt
          omega

/-! ### The BFS loop invariant -/

/-- The dictionary evolves during a search only by auto-vivification:
every `dictGet` view is unchanged, keys only grow, stored targets are
unchanged. -/
structure DictEvolved (g₀ g : Dict) : Prop where
  hget : ∀ k, dictGet g k = dictGet g₀ k
  hkeys : ∀ k, k ∈ dictKeys g₀ → k ∈ dictKeys g
  htg : allTargets g = allTargets g₀

/-- What is true of every path stored in the BFS queue: it starts at `s`,
has no repeated node, all its nodes are visited, it is a walk of the
original graph, and no walk reaches its endpoint in fewer hops. -/
def QueuedPath (g₀ : Dict) (s : String) (vis : List String)
    (p : List String) : Prop :=
  p.head? = some s ∧ p.Nodup ∧ (∀ x ∈ p, x ∈ vis) ∧ isWalk g₀ p ∧
    ∀ n, Reach g₀ s (p.getLastD "") n → p.length ≤ n + 1

theorem QueuedPath.mono {g₀ : Dict} {s : String} {vis vis' : List String}
    {p : List String} (hv : ∀ x ∈ vis, x ∈ vis')
    (h : QueuedPath g₀ s vis p) : QueuedPath g₀ s vis' p :=
  ⟨h.1, h.2.1, fun x hx => hv x (h.2.2.1 x hx), h.2.2.2.1, h.2.2.2.2⟩

/-- The BFS loop invariant, relative to the dictionary `g₀` the loop was
started on. -/
structure Inv (g₀ : Dict) (s : String) (g : Dict)
    (queue : List (List String)) (vis : List String) : Prop where
  evolved : DictEvolved g₀ g
  hs : s ∈ vis
  hpaths : ∀ p ∈ queue, QueuedPath g₀ s vis p
  hsorted : queue.Pairwise (fun a b => a.length ≤ b.length ∧ b.length ≤ a.length + 1)
  hclosed : ∀ u ∈ vis, (∃ p ∈ queue, p.getLastD "" = u) ∨
    ∀ ve ∈ dictGet g₀ u, ve.1 ∈ vis

theorem pairwiseOfForall {α : Type} {R : α → α → Prop} (h : ∀ a b, R a b) :
    ∀ l : List α, l.Pairwise R
  | [] => List.Pairwise.nil
  | a :: l => List.Pairwise.cons (fun b _ => h a b) (pairwiseOfForall h l)

/-- Frontier cut: when every queued path has at least `L` nodes, every
node reachable in at most `L - 1` hops has been visited. -/
theorem frontier_cut {g₀ : Dict} {s : String} {g : Dict}
    {queue : List (List String)} {vis : List String}
    (inv : Inv g₀ s g queue vis) (L : Nat)
    (hL : ∀ p ∈ queue, L ≤ p.length) :
    ∀ v n, Reach g₀ s v n → n + 1 ≤ L → v ∈ vis := by
  intro v n hr
  induction hr with
  | refl => intro _; exact inv.hs
  | @step u v' n' hru hedge ihu =>
    intro hle
    have hu : u ∈ vis := ihu (by omega)
    rcases inv.hclosed u hu with ⟨p, hp, hlast⟩ | hcl
    · have h1 : p.length ≤ n' + 1 := (inv.hpaths p hp).2.2.2.2 n' (by rw [hlast]; exact hru)
      have h2 := hL p hp
      omega
    · obtain ⟨e, he⟩ := hedge
      exact hcl (v', e) he

/-- One BFS iteration that does not hit the target preserves the
invariant. -/
theorem inv_step {g₀ : Dict} {s : String} {g : Dict} {path : List String}
    {rest : List (List String)} {vis : List String}
    (inv : Inv g₀ s g (path :: rest) vis) :
    Inv g₀ s (dictGetViv g (path.getLastD "")).2
      (expand path (dictGetViv g (path.getLastD "")).1 rest vis).1
      (expand path (dictGetViv g (path.getLastD "")).1 rest vis).2 := by
  obtain ⟨hhead, hnodup, hsub, hwalk, hmin⟩ :=
    inv.hpaths path (List.mem_cons_self _ _)
  have hpne : path ≠ [] := by
    intro h; rw [h] at hhead; simp at hhead
  have hns : (dictGetViv g (path.getLastD "")).1 = dictGet g₀ (path.getLastD "") := by
    rw [dictGetViv_fst, inv.evolved.hget]
  obtain ⟨news, heq, hnvis, hnedge, hncover⟩ :=
    expand_spec path (dictGetViv g (path.getLastD "")).1 rest vis
  have hL : ∀ p' ∈ path :: rest, path.length ≤ p'.length := by
    intro p' hp'
    rcases List.mem_cons.mp hp' with h | h
    · rw [h]
    · exact ((List.pairwise_cons.mp inv.hsorted).1 p' h).1
  have hrest2 : ∀ p' ∈ rest, p'.length ≤ path.length + 1 := by
    intro p' hp'
    exact ((List.pairwise_cons.mp inv.hsorted).1 p' hp').2
  have hnews_min : ∀ v ∈ news, ∀ n, Reach g₀ s v n → path.length ≤ n := by
    intro v hv n hr
    by_contra hlt
    exact hnvis v hv (frontier_cut inv path.length hL v n hr (by omega))
  have hnews_edge : ∀ v ∈ news, hasEdge g₀ (path.getLastD "") v := by
    intro v hv
    obtain ⟨e, he⟩ := hnedge v hv
    rw [hns] at he
    exact ⟨e, he⟩
  have hvmono : ∀ x ∈ vis, x ∈ news.reverse ++ vis :=
    fun x hx => List.mem_append_right _ hx
  have hQP : ∀ v ∈ news, QueuedPath g₀ s (news.reverse ++ vis) (path ++ [v]) := by
    intro v hv
    refine ⟨?_, ?_, ?_, ?_, ?_⟩
    · rw [head?_concat hpne]; exact hhead
    · rw [List.nodup_append]
      refine ⟨hnodup, by simp, fun x hx hx' => ?_⟩
      simp at hx'
      exact hnvis v hv (hx' ▸ hsub x hx)
    · intro x hx
      rcases List.mem_append.mp hx with h | h
      · exact hvmono x (hsub x h)
      · simp at h
        exact List.mem_append_left _ (List.mem_reverse.mpr (h ▸ hv))
    · exact isWalk_concat hwalk (hnews_edge v hv)
    · intro n hr
      rw [List.getLastD_concat] at hr
      have := hnews_min v hv n hr
      simp only [List.length_append, List.length_cons, List.length_nil]
      omega
  rw [heq]
  refine ⟨?_, hvmono s inv.hs, ?_, ?_, ?_⟩
  · exact ⟨fun k => by rw [dictGet_dictGetViv]; exact inv.evolved.hget k,
      fun k hk => dictKeys_dictGetViv_mono _ (inv.evolved.hkeys k hk),
      by rw [allTargets_dictGetViv]; exact inv.evolved.htg⟩
  · intro p' hp'
    rcases List.mem_append.mp hp' with h | h
    · exact (inv.hpaths p' (List.mem_cons_of_mem _ h)).mono hvmono
    · obtain ⟨v, hv, rfl⟩ := List.mem_map.mp h
      exact hQP v hv
  · rw [List.pairwise_append]
    refine ⟨(List.pairwise_cons.mp inv.hsorted).2, ?_, ?_⟩
    · rw [List.pairwise_map]
      exact pairwiseOfForall (fun a b => ⟨by simp, by simp⟩) news
    · intro a ha b hb
      obtain ⟨v, hv, rfl⟩ := List.mem_map.mp hb
      have h1 := hL a (List.mem_cons_of_mem _ ha)
      have h2 := hrest2 a ha
      constructor
      · simpa using h2
      · simp
        omega
  · intro u hu
    rcases List.mem_append.mp hu with h | h
    · left
      refine ⟨path ++ [u], ?_, ?_⟩
      · exact List.mem_append_right _ (List.mem_map_of_mem _ (List.mem_reverse.mp h))
      · rw [List.getLastD_concat]
    · rcases inv.hclosed u h with ⟨p, hp, hlast⟩ | hcl
      · rcases List.mem_cons.mp hp with hp' | hp'
        · right
          intro ve hve
          have hve' : ve ∈ (dictGetViv g (path.getLastD "")).1 := by
            rw [hns, ← hp', hlast]
            exact hve
          rcases hncover ve hve' with h' | h'
          · exact hvmono _ h'
          · exact List.mem_append_left _ (List.mem_reverse.mpr h')
        · exact Or.inl ⟨p, List.mem_append_left _ hp', hlast⟩
      · right
        intro ve hve
        exact hvmono _ (hcl ve hve)

/-- What the master lemma guarantees of a returned path. -/
def GoodPath (g₀ : Dict) (s t : String) (p : List String) : Prop :=
  p.head? = some s ∧ p.getLast? = some t ∧ p.Nodup ∧ isWalk g₀ p ∧
    ∀ n, Reach g₀ s t n → p.length ≤ n + 1

/-- Master soundness lemma for the BFS loop: from any invariant state, if
the loop returns, the dictionary has only been auto-vivified and any
returned path is a shortest walk from `s` to `t`. -/
theorem bfsLoop_master {g₀ : Dict} {s t : String} :
    ∀ (fuel : Nat) (g : Dict) (queue : List (List String)) (vis : List String),
    Inv g₀ s g queue vis →
    ∀ (r : Option (List String)) (g' : Dict),
    bfsLoop t fuel g queue vis = some (r, g') →
    DictEvolved g₀ g' ∧ ∀ p, r = some p → GoodPath g₀ s t p := by
  intro fuel
  induction fuel with
  | zero => intro g queue vis _ r g' h; simp [bfsLoop] at h
  | succ fuel ih =>
    intro g queue vis inv r g' h
    cases queue with
    | nil =>
      rw [bfsLoop] at h
      simp only [Option.some_inj, Prod.mk.injEq] at h
      obtain ⟨hr, hg⟩ := h
      subst hg
      refine ⟨inv.evolved, fun p hp => ?_⟩
      rw [← hr] at hp
      simp at hp
    | cons path rest =>
      rw [bfsLoop] at h
      by_cases hcur : path.getLastD "" = t
      · rw [if_pos hcur] at h
        simp only [Option.some_inj, Prod.mk.injEq] at h
        obtain ⟨hr, hg⟩ := h
        subst hg
        obtain ⟨hhead, hnodup, hsub, hwalk, hmin⟩ :=
          inv.hpaths path (List.mem_cons_self _ _)
        have hpne : path ≠ [] := by
          intro hc; rw [hc] at hhead; simp at hhead
        refine ⟨inv.evolved, fun p hp => ?_⟩
        rw [← hr, Option.some_inj] at hp
        subst hp
        refine ⟨hhead, ?_, hnodup, hwalk, ?_⟩
        · rw [getLast?_of_ne_nil hpne "", hcur]
        · intro n hn
          exact hmin n (by rw [hcur]; exact hn)
      · rw [if_neg hcur] at h
        exact ih _ _ _ (inv_step inv) r g' h

/-- The invariant holds at the loop's starting state (source lines 42–43):
queue `[[start]]`, visited `{start}`. -/
theorem inv_init (g₀ : Dict) (s : String) : Inv g₀ s g₀ [[s]] [s] := by
  refine ⟨⟨fun k => rfl, fun k hk => hk, rfl⟩, by simp, ?_, ?_, ?_⟩
  · intro p hp
    simp at hp
    subst hp
    refine ⟨rfl, by simp, by simp, isWalk_singleton g₀ s, ?_⟩
    intro n _
    simp
  · exact List.pairwise_singleton _ _
  · intro u hu
    simp at hu
    subst hu
    exact Or.inl ⟨[u], by simp, rfl⟩

/-- The fuel chosen by `find_shortest_attack_path_bfs` is always enough:
the loop completes. -/
theorem bfsLoop_run_isSome (g : Dict) (s t : String) :
    (bfsLoop t (bfsFuel g s) g [[s]] [s]).isSome := by
  apply bfsLoop_suff t (s :: allTargets g)
  · intro k ve hve
    exact List.mem_cons_of_mem _ (dictGet_target_mem hve)
  · have h1 := remaining_le (s :: allTargets g) [s]
    simp only [bfsFuel, List.length_cons, List.length_nil] at h1 ⊢
    omega

/-- Full characterisation of a search from a known start node. -/
theorem find_run {ag : AttackGraph} {s t : String} (hk : knownStart ag s) :
    ∃ r g', bfsLoop t (bfsFuel ag.graph s) ag.graph [[s]] [s] = some (r, g') ∧
      find_shortest_attack_path_bfs ag s t = (r, { ag with graph := g' }) ∧
      DictEvolved ag.graph g' ∧ ∀ p, r = some p → GoodPath ag.graph s t p := by
  obtain ⟨⟨r, g'⟩, hb⟩ :=
    Option.isSome_iff_exists.mp (bfsLoop_run_isSome ag.graph s t)
  have hm := bfsLoop_master _ _ _ _ (inv_init ag.graph s) r g' hb
  refine ⟨r, g', hb, ?_, hm.1, hm.2⟩
  unfold find_shortest_attack_path_bfs
  rw [if_pos hk, hb]

/-- An unknown start node short-circuits the whole call. -/
theorem find_unknown {ag : AttackGraph} {s : String} (hk : ¬ knownStart ag s)
    (t : String) : find_shortest_attack_path_bfs ag s t = (none, ag) := by
  unfold find_shortest_attack_path_bfs
  rw [if_neg hk]

/-- The BFS loop's returned path depends on the dictionary only through
`dictGet`: two get-equal dictionaries drive the loop to the same result. -/
theorem bfsLoop_congr (t : String) :
    ∀ (fuel : Nat) (ga gb : Dict) (queue : List (List String)) (vis : List String),
    (∀ k, dictGet ga k = dictGet gb k) →
    (bfsLoop t fuel ga queue vis = none ∧ bfsLoop t fuel gb queue vis = none) ∨
    (∃ r ga' gb', bfsLoop t fuel ga queue vis = some (r, ga') ∧
      bfsLoop t fuel gb queue vis = some (r, gb')) := by
  intro fuel
  induction fuel with
  | zero => intro ga gb queue vis _; exact Or.inl ⟨rfl, rfl⟩
  | succ fuel ih =>
    intro ga gb queue vis hget
    cases queue with
    | nil => exact Or.inr ⟨none, ga, gb, rfl, rfl⟩
    | cons path rest =>
      by_cases hcur : path.getLastD "" = t
      · refine Or.inr ⟨some path, ga, gb, ?_, ?_⟩ <;> rw [bfsLoop, if_pos hcur]
      · have hfst : (dictGetViv gb (path.getLastD "")).1 =
            (dictGetViv ga (path.getLastD "")).1 := by
          rw [dictGetViv_fst, dictGetViv_fst, hget]
        have hviv : ∀ k, dictGet (dictGetViv ga (path.getLastD "")).2 k =
            dictGet (dictGetViv gb (path.getLastD "")).2 k := by
          intro k
          rw [dictGet_dictGetViv, dictGet_dictGetViv]
          exact hget k
        rw [bfsLoop, if_neg hcur, bfsLoop, if_neg hcur, hfst]
        exact ih _ _ _ _ hviv

/-- Any `some` result of a search is a `GoodPath`. -/
theorem find_some_good {ag : AttackGraph} {s t : String} {p : List String}
    (h : (find_shortest_attack_path_bfs ag s t).1 = some p) :
    GoodPath ag.graph s t p := by
  by_cases hk : knownStart ag s
  · obtain ⟨r, g', _, hfind, _, hgood⟩ := find_run (t := t) hk
    rw [hfind] at h
    exact hgood p h
  · rw [find_unknown hk] at h
    simp at h

/-- A `GoodPath` is a walk of minimum node count among all walks from
`s` to `t`. -/
theorem goodPath_walk {g₀ : Dict} {s t : String} {p : List String}
    (h : GoodPath g₀ s t p) :
    isWalkFromTo g₀ s t p ∧
      ∀ w, isWalkFromTo g₀ s t w → p.length ≤ w.length := by
  obtain ⟨hh, hl, _, hw, hmin⟩ := h
  refine ⟨⟨hw, hh, hl⟩, fun w hwft => ?_⟩
  have h1 := hmin _ (walkFromTo_reach hwft)
  have h2 : 1 ≤ w.length := List.length_pos.mpr hwft.1.1
  omega

/-- Every node reachable from a member of an edge-closed node set is in
the set. -/
theorem reach_closed {g : Dict} {S : List String} {s : String}
    (hs : s ∈ S) (hcl : ∀ u ∈ S, ∀ ve ∈ dictGet g u, ve.1 ∈ S) :
    ∀ v n, Reach g s v n → v ∈ S := by
  intro v n hr
  induction hr with
  | refl => exact hs
  | @step u v' n' _ hedge ih =>
    obtain ⟨e, he⟩ := hedge
    exact hcl u ih (v', e) he

/-! ### The claims -/

/-- C1: whenever `find_shortest_attack_path_bfs` returns a path, the
returned sequence starts with `start`, ends with `target`, contains no
repeated node, and its edge count (node count minus one) equals the
graph-theoretic shortest hop distance from `start` to `target`: it is a
walk of the graph, and no walk from `start` to `target` has fewer nodes. -/
theorem C1_bfs_returns_shortest_path (ag : AttackGraph) (s t : String)
    (p : List String) (h : (find_shortest_attack_path_bfs ag s t).1 = some p) :
    p.head? = some s ∧ p.getLast? = some t ∧ p.Nodup ∧
      isWalkFromTo ag.graph s t p ∧
      ∀ w, isWalkFromTo ag.graph s t w → p.length ≤ w.length := by
  have hg := find_some_good h
  have hw := goodPath_walk hg
  exact ⟨hg.1, hg.2.1, hg.2.2.1, hw.1, hw.2⟩

/-- C1, witness: on the two-edge graph `A→B→C` the search returns
`[A, B, C]`, and the theorem's conclusions hold for it. -/
theorem C1_bfs_returns_shortest_path_witness :
    (find_shortest_attack_path_bfs
        (add_attack_step (add_attack_step emptyGraph "A" "B" "e1") "B" "C" "e2")
        "A" "C").1 = some ["A", "B", "C"] ∧
    ((["A", "B", "C"] : List String).head? = some "A" ∧
      (["A", "B", "C"] : List String).getLast? = some "C" ∧
      (["A", "B", "C"] : List String).Nodup ∧
      isWalkFromTo
        (add_attack_step (add_attack_step emptyGraph "A" "B" "e1") "B" "C" "e2").graph
        "A" "C" ["A", "B", "C"] ∧
      ∀ w, isWalkFromTo
        (add_attack_step (add_attack_step emptyGraph "A" "B" "e1") "B" "C" "e2").graph
        "A" "C" w → (["A", "B", "C"] : List String).length ≤ w.length) :=
  ⟨by decide, C1_bfs_returns_shortest_path _ "A" "C" ["A", "B", "C"] (by decide)⟩

/-- C2, counterexample to the claim as stated: searching the one-edge
graph `A→B` for an unreachable target dequeues the sink `B`, and the
`defaultdict` read `self.graph[B]` adds the key `B` to the adjacency
mapping — the key set changes, so the search is not free of effects on
the adjacency state. -/
theorem C2_search_adds_keys :
    dictKeys (find_shortest_attack_path_bfs
        (add_attack_step emptyGraph "A" "B" "e") "A" "C").2.graph ≠
      dictKeys (add_attack_step emptyGraph "A" "B" "e").graph := by decide

/-- C2, amended: a search never adds, removes, or reorders any node's
outgoing edges (every `dictGet` view of the adjacency mapping is
unchanged), never removes a key, and leaves the visual graph untouched;
it may only append auto-vivified empty entries for dequeued sinks. -/
theorem C2_search_preserves_edges (ag : AttackGraph) (s t : String) :
    (∀ k, dictGet (find_shortest_attack_path_bfs ag s t).2.graph k =
        dictGet ag.graph k) ∧
    (∀ k, k ∈ dictKeys ag.graph →
        k ∈ dictKeys (find_shortest_attack_path_bfs ag s t).2.graph) ∧
    (find_shortest_attack_path_bfs ag s t).2.visual = ag.visual := by
  by_cases hk : knownStart ag s
  · obtain ⟨r, g', _, hfind, hev, _⟩ := find_run (t := t) hk
    rw [hfind]
    exact ⟨hev.hget, hev.hkeys, rfl⟩
  · rw [find_unknown hk]
    exact ⟨fun k => rfl, fun k hk' => hk', rfl⟩

/-- C3, counterexample to the claim as stated: on the one-edge graph
`A→B`, the unknown-start call (`start = C`) and the exhausted-search call
(`start = A`, `target = Z`) both return `None` — the two failure outcomes
are equal as values, so the caller cannot distinguish them. -/
theorem C3_failures_indistinguishable :
    ¬ knownStart (add_attack_step emptyGraph "A" "B" "e") "C" ∧
    knownStart (add_attack_step emptyGraph "A" "B" "e") "A" ∧
    (find_shortest_attack_path_bfs
        (add_attack_step emptyGraph "A" "B" "e") "C" "B").1 = none ∧
    (find_shortest_attack_path_bfs
        (add_attack_step emptyGraph "A" "B" "e") "A" "Z").1 = none ∧
    (find_shortest_attack_path_bfs
        (add_attack_step emptyGraph "A" "B" "e") "C" "B").1 =
      (find_shortest_attack_path_bfs
        (add_attack_step emptyGraph "A" "B" "e") "A" "Z").1 := by decide

/-- C3, amended: both failure outcomes produce the same returned value
`None`; the "unknown start node" case is distinguished from "no path
found" only by console output, not by the value the caller receives.  In
particular an unknown start always returns `None`. -/
theorem C3_unknown_start_returns_none (ag : AttackGraph) (s t : String)
    (hk : ¬ knownStart ag s) :
    (find_shortest_attack_path_bfs ag s t).1 = none := by
  rw [find_unknown hk]

/-- C3, witness for the amended claim. -/
theorem C3_unknown_start_returns_none_witness :
    ¬ knownStart (add_attack_step emptyGraph "A" "B" "e") "X" ∧
    (find_shortest_attack_path_bfs
        (add_attack_step emptyGraph "A" "B" "e") "X" "B").1 = none :=
  ⟨by decide, C3_unknown_start_returns_none _ "X" "B" (by decide)⟩

/-- C4: the claim is right about the spec's `has_node` intent, and the
code is wrong.  On the graph with single edge `A→B`, node `B` appears as
an edge target, so `spec_has_node` holds; but line 37 checks only
adjacency keys and visual-edge sources (`[u for u, v in edges]` takes
sources, making the second test redundant), so the call with
`start = B` takes the unknown-start branch and returns `None` without
searching — instead of returning the trivial path `[B]` for
`target = B`. -/
theorem C4_target_only_start_rejected :
    spec_has_node (add_attack_step emptyGraph "A" "B" "e") "B" = true ∧
    ¬ knownStart (add_attack_step emptyGraph "A" "B" "e") "B" ∧
    (find_shortest_attack_path_bfs
        (add_attack_step emptyGraph "A" "B" "e") "B" "B").1 = none := by decide

/-- C5: if `start` is a known node and no walk of the graph leads from
`start` to `target`, the search returns `None` — never a partial or
incorrect path. -/
theorem C5_unreachable_returns_none (ag : AttackGraph) (s t : String)
    (_hk : knownStart ag s)
    (hunreach : ¬ ∃ w, isWalkFromTo ag.graph s t w) :
    (find_shortest_attack_path_bfs ag s t).1 = none := by
  cases hr : (find_shortest_attack_path_bfs ag s t).1 with
  | none => rfl
  | some p =>
    exact absurd ⟨p, (goodPath_walk (find_some_good hr)).1⟩ hunreach

/-- C5, witness: on the one-edge graph `A→B`, the node `Z` is
unreachable from the known start `A`, and the search returns `None`. -/
theorem C5_unreachable_returns_none_witness :
    knownStart (add_attack_step emptyGraph "A" "B" "e") "A" ∧
    (¬ ∃ w, isWalkFromTo (add_attack_step emptyGraph "A" "B" "e").graph
        "A" "Z" w) ∧
    (find_shortest_attack_path_bfs
        (add_attack_step emptyGraph "A" "B" "e") "A" "Z").1 = none := by
  have hunreach : ¬ ∃ w, isWalkFromTo
      (add_attack_step emptyGraph "A" "B" "e").graph "A" "Z" w := by
    rintro ⟨w, hw⟩
    have hmem := reach_closed (S := ["A", "B"]) (by decide)
      (by decide) "Z" _ (walkFromTo_reach hw)
    simp at hmem
  exact ⟨by decide, hunreach,
    C5_unreachable_returns_none _ "A" "Z" (by decide) hunreach⟩

/-- C6: every insertion appends exactly one `(target, exploit)` entry at
the end of `source`'s outgoing-edge sequence, so the outgoing-edge count
grows by exactly one per call, duplicates included. -/
theorem C6_insertion_appends_one_edge (ag : AttackGraph)
    (source target exploit : String) :
    dictGet (add_attack_step ag source target exploit).graph source =
      dictGet ag.graph source ++ [(target, exploit)] ∧
    (dictGet (add_attack_step ag source target exploit).graph source).length =
      (dictGet ag.graph source).length + 1 := by
  have h : dictGet (add_attack_step ag source target exploit).graph source =
      dictGet ag.graph source ++ [(target, exploit)] :=
    dictGet_dictAppend_same ag.graph source (target, exploit)
  exact ⟨h, by rw [h]; simp⟩

/-- The ten-edge sample topology of the program's `__main__` block, in
insertion order. -/
def sampleScenario : AttackGraph :=
  [("Internet", "WebServer", "CVE-2023-XYZ (RCE)"),
   ("Internet", "VPN_Gateway", "Weak_Credentials"),
   ("WebServer", "AppServer", "Config_Error"),
   ("WebServer", "FileServer", "SMB_Exploit"),
   ("VPN_Gateway", "Internal_PC", "Phishing_Link"),
   ("AppServer", "Database_SQL", "SQL_Injection"),
   ("FileServer", "Database_SQL", "Stored_Creds"),
   ("Internal_PC", "Database_SQL", "Admin_Access"),
   ("Internal_PC", "Printer", "Default_Password"),
   ("Printer", "Database_SQL", "Legacy_Connect")].foldl
    (fun ag ste => add_attack_step ag ste.1 ste.2.1 ste.2.2) emptyGraph

/-- C7: on the sample topology, the search from `Internet` to
`Database_SQL` returns the 4-node (3-edge) path through `WebServer` and
`AppServer` — the first of the claim's two admissible shortest paths, and
not the longer route through `VPN_Gateway`, `Internal_PC`, or
`Printer`. -/
theorem C7_sample_scenario_shortest_path :
    (find_shortest_attack_path_bfs sampleScenario "Internet" "Database_SQL").1 =
      some ["Internet", "WebServer", "AppServer", "Database_SQL"] ∧
    (["Internet", "WebServer", "AppServer", "Database_SQL"] : List String).length
      = 4 := by decide

/-- C8: on any graph holding a self-loop edge `A→A`, searching from `A`
to `A` terminates at once with the trivial single-node path `[A]`. -/
theorem C8_self_loop_trivial_path (ag : AttackGraph) (a e : String)
    (h : (a, e) ∈ dictGet ag.graph a) :
    (find_shortest_attack_path_bfs ag a a).1 = some [a] := by
  have hne : dictGet ag.graph a ≠ [] := by
    intro hc
    rw [hc] at h
    simp at h
  have hk : knownStart ag a := Or.inl (dictGet_ne_nil_mem_keys hne)
  unfold find_shortest_attack_path_bfs
  rw [if_pos hk]
  obtain ⟨m, hm⟩ : ∃ m, bfsFuel ag.graph a = m + 1 :=
    ⟨(a :: allTargets ag.graph).length + 1, by unfold bfsFuel; omega⟩
  rw [hm]
  simp [bfsLoop]

/-- C8, witness: the concrete self-loop graph `A→A`. -/
theorem C8_self_loop_trivial_path_witness :
    ("A", "l") ∈ dictGet (add_attack_step emptyGraph "A" "A" "l").graph "A" ∧
    (find_shortest_attack_path_bfs
        (add_attack_step emptyGraph "A" "A" "l") "A" "A").1 = some ["A"] :=
  ⟨by decide, C8_self_loop_trivial_path _ "A" "l" (by decide)⟩

/-- C9: repeating a search on the object state left by a first search —
the only mutable state the function touches — returns the identical
result: the auto-vivified empty entries change no `dictGet` view, no
known-start verdict, and no fuel bound. -/
theorem C9_repeated_search_identical (ag : AttackGraph) (s t : String) :
    (find_shortest_attack_path_bfs
        (find_shortest_attack_path_bfs ag s t).2 s t).1 =
      (find_shortest_attack_path_bfs ag s t).1 := by
  by_cases hk : knownStart ag s
  · obtain ⟨r, g', hb, hfind, hev, _⟩ := find_run (t := t) hk
    rw [hfind]
    have hk₁ : knownStart { ag with graph := g' } s := by
      have hk' : s ∈ dictKeys ag.graph ∨ s ∈ visualSources ag := hk
      rcases hk' with h | h
      · exact Or.inl (hev.hkeys s h)
      · exact Or.inr h
    obtain ⟨r₂, g₂, hb₂, hfind₂, _, _⟩ := find_run (t := t) hk₁
    rw [hfind₂]
    have hb₂' : bfsLoop t (bfsFuel g' s) g' [[s]] [s] = some (r₂, g₂) := hb₂
    have hfuel : bfsFuel g' s = bfsFuel ag.graph s := by
      unfold bfsFuel
      rw [hev.htg]
    rw [hfuel] at hb₂'
    rcases bfsLoop_congr t (bfsFuel ag.graph s) g' ag.graph [[s]] [s]
        hev.hget with ⟨hna, _⟩ | ⟨r₃, ga', gb', hba, hbb⟩
    · rw [hb₂'] at hna
      exact absurd hna (by simp)
    · rw [hb₂'] at hba
      rw [hb] at hbb
      simp only [Option.some_inj, Prod.mk.injEq] at hba hbb
      simp [hba.1, hbb.1]
  · rw [find_unknown hk, find_unknown hk]

/-- C10: the BFS loop terminates on every graph: the fuel bound computed
by `find_shortest_attack_path_bfs` is never exhausted, so the loop always
reaches a returned result (each node is enqueued at most once, so the
loop dequeues at most `1 + #targets` entries). -/
theorem C10_bfs_terminates (ag : AttackGraph) (s t : String) :
    ∃ r g', bfsLoop t (bfsFuel ag.graph s) ag.graph [[s]] [s] = some (r, g') := by
  obtain ⟨⟨r, g'⟩, hb⟩ :=
    Option.isSome_iff_exists.mp (bfsLoop_run_isSome ag.graph s t)
  exact ⟨r, g', hb⟩

end GrafoAtaque
